import Mathlib

/-!
Verification of the position/ledger accounting engine of the
live-hog-futures repository (the Node.js server in `src/unnamed/part_002`,
first variant).  The engine's numbers are JavaScript numbers; we embed them
as an inductive domain `JsNum` with `NaN`, `+Infinity`, `-Infinity` and
exact rationals for the finite values (the IEEE special-value rules are
kept; finite arithmetic is idealised as exact rational arithmetic, and
`toFixed(2)` as exact decimal rounding with ties towards positive
infinity, per the ECMAScript specification of `Number.prototype.toFixed`).
Account tables and holdings maps are association lists, mirroring the JSON
objects keyed by username / symbol.  Each trade request re-reads the store
(`readUsers`) and, on success, rewrites it (`writeUsers`); the JSON
round-trip between requests — `JSON.stringify` stores non-finite numbers
as `null`, which every subsequent read coerces back to 0 — is modelled by
`persistTable` and the request-level step relation `StoreTradeStep`.
-/

attribute [local semireducible] Rat.add Rat.mul Rat.sub

namespace HogFutures

/-- A JavaScript number: `NaN`, the two infinities, or a finite value
(idealised as an exact rational). -/
inductive JsNum where
  | nan : JsNum
  | inf : JsNum
  | ninf : JsNum
  | fin (q : ℚ) : JsNum
deriving DecidableEq, Repr

namespace JsNum

/-- JS unary minus. -/
def neg : JsNum → JsNum
  | nan => nan
  | inf => ninf
  | ninf => inf
  | fin q => fin (-q)

/-- JS `+` on numbers. -/
def add : JsNum → JsNum → JsNum
  | nan, _ => nan
  | _, nan => nan
  | inf, ninf => nan
  | ninf, inf => nan
  | inf, _ => inf
  | _, inf => inf
  | ninf, _ => ninf
  | _, ninf => ninf
  | fin a, fin b => fin (a + b)

/-- JS `-` on numbers (`a - b = a + (-b)`). -/
def sub (a b : JsNum) : JsNum := add a (neg b)

/-- JS `*` on numbers. -/
def mul : JsNum → JsNum → JsNum
  | nan, _ => nan
  | _, nan => nan
  | inf, inf => inf
  | inf, ninf => ninf
  | ninf, inf => ninf
  | ninf, ninf => inf
  | inf, fin b => if 0 < b then inf else if b < 0 then ninf else nan
  | fin a, inf => if 0 < a then inf else if a < 0 then ninf else nan
  | ninf, fin b => if 0 < b then ninf else if b < 0 then inf else nan
  | fin a, ninf => if 0 < a then ninf else if a < 0 then inf else nan
  | fin a, fin b => fin (a * b)

/-- JS `/` on numbers (no negative zero in the idealised domain: a finite
zero divisor gives the infinity whose sign is the dividend's sign).  The
finite quotient is spelled with `Rat.divInt` so that it evaluates inside
the kernel; `jsDiv_fin` proves it equal to the rational quotient `a / b`. -/
def div : JsNum → JsNum → JsNum
  | nan, _ => nan
  | _, nan => nan
  | inf, inf => nan
  | inf, ninf => nan
  | ninf, inf => nan
  | ninf, ninf => nan
  | inf, fin b => if b < 0 then ninf else inf
  | ninf, fin b => if b < 0 then inf else ninf
  | fin _, inf => fin 0
  | fin _, ninf => fin 0
  | fin a, fin b =>
      if b = 0 then (if a = 0 then nan else if 0 < a then inf else ninf)
      else fin (Rat.divInt (a.num * b.den) (a.den * b.num))

/-- JS `<` on numbers (`NaN` compares false with everything). -/
def lt : JsNum → JsNum → Bool
  | nan, _ => false
  | _, nan => false
  | ninf, ninf => false
  | ninf, _ => true
  | _, ninf => false
  | inf, _ => false
  | fin _, inf => true
  | fin a, fin b => decide (a < b)

/-- JS `<=` on numbers (`NaN` compares false with everything). -/
def le : JsNum → JsNum → Bool
  | nan, _ => false
  | _, nan => false
  | ninf, _ => true
  | _, ninf => false
  | _, inf => true
  | inf, fin _ => false
  | fin a, fin b => decide (a ≤ b)

/-- JS `>=`: `a >= b` is `b <= a`. -/
def ge (a b : JsNum) : Bool := le b a

/-- JS falsiness of a number: `NaN` and `0` are falsy. -/
def falsy : JsNum → Bool
  | nan => true
  | fin q => decide (q = 0)
  | _ => false

/-- Exact rounding to 2 decimal places with ties towards positive
infinity, the idealised `toFixed(2)` rounding rule of ECMAScript.  Spelled
with `Rat.floor`/`Rat.divInt`/`mkRat` so that it evaluates inside the
kernel; `round2_eq` proves it equal to `⌊x * 100 + 1/2⌋ / 100`. -/
def round2 (x : ℚ) : ℚ := Rat.divInt (Rat.floor (x * 100 + mkRat 1 2)) 100

/-- `Number(x.toFixed(2))`: the non-finite values round-trip through their
string forms unchanged; finite values are rounded to 2 decimal places. -/
def toFixed2 : JsNum → JsNum
  | nan => nan
  | inf => inf
  | ninf => ninf
  | fin q => fin (round2 q)

end JsNum

/-- Association-list lookup, mirroring property access `obj[key]` on a JSON
object (keys are unique in a JSON object, so the first hit is the value). -/
def lookupKey {α : Type} : List (String × α) → String → Option α
  | [], _ => none
  | (k', v) :: rest, k => if k' = k then some v else lookupKey rest k

/-- Association-list update, mirroring `obj[key] = v` on a JSON object: an
existing key keeps its place, a new key is appended. -/
def insertKey {α : Type} : List (String × α) → String → α → List (String × α)
  | [], k, v => [(k, v)]
  | (k', v') :: rest, k, v =>
      if k' = k then (k, v) :: rest else (k', v') :: insertKey rest k v

/-- Association-list removal, mirroring `delete obj[key]`. -/
def eraseKey {α : Type} : List (String × α) → String → List (String × α)
  | [], _ => []
  | (k', v') :: rest, k =>
      if k' = k then eraseKey rest k else (k', v') :: eraseKey rest k

/-- A stored holding as found in the persisted JSON: each field may be
missing (or otherwise coerce to `NaN`); `some n` is the field's value seen
through JS `Number(_)` coercion. -/
structure RawHolding where
  position : Option JsNum
  averagePrice : Option JsNum
deriving DecidableEq, Repr

/-- A well-typed holding, the output shape of `ensureHoldingStructure`. -/
structure Holding where
  position : JsNum
  averagePrice : JsNum
deriving DecidableEq, Repr

/-- `Number(x) || 0`: a missing field coerces to `NaN`, and the falsy
numbers (`NaN`, `0`) are replaced by `0`. -/
def numOr0 : Option JsNum → JsNum
  | none => .fin 0
  | some .nan => .fin 0
  | some n => n

/-- `ensureHoldingStructure(holding = {})` from the source: coerces each
field of a possibly missing or malformed stored holding with
`Number(_) || 0`. -/
def ensureHoldingStructure (h : Option RawHolding) : Holding :=
  match h with
  | none => ⟨.fin 0, .fin 0⟩
  | some r => ⟨numOr0 r.position, numOr0 r.averagePrice⟩

/-- One trade-history entry as built by `handleTrade` (the nondeterministic
`id` and `timestamp` fields carry no accounting content and are omitted). -/
structure TradeEntry where
  type : String
  symbol : String
  quantity : JsNum
  price : JsNum
  balanceAfter : JsNum
  positionAfter : JsNum
  realizedPnl : JsNum
deriving DecidableEq, Repr

/-- One user's account state: balance, per-symbol holdings (as stored, so
possibly malformed), and trade history (newest first). -/
structure Account where
  balance : JsNum
  holdings : List (String × RawHolding)
  history : List TradeEntry
deriving DecidableEq, Repr

/-- The whole persisted account table, keyed by username. -/
abbrev AccountTable : Type := List (String × Account)

/-- The freshly registered account built by `handleRegister`. -/
def freshAccount : Account := ⟨.fin 1000000, [], []⟩

/-- The typed failure signals of the trade engine (the Chinese error
strings of the source, one constructor per distinct message). -/
inductive TradeError where
  | invalidSide : TradeError
  | invalidSymbol : TradeError
  | invalidAmount : TradeError
  | unknownAccount : TradeError
  | insufficientFunds : TradeError
  | insufficientPosition : TradeError
deriving DecidableEq, Repr

deriving instance DecidableEq for Except

/-- The trade request body after JS `Number(_)` coercion of `quantity` and
`price` (`symbol` is `none` when the field is not a string). -/
structure TradeInput where
  type : String
  symbol : Option String
  quantity : JsNum
  price : JsNum
deriving DecidableEq, Repr

/-- ASCII upper-casing of one character (`String.prototype.toUpperCase`
restricted to ASCII, which covers every symbol this system uses). -/
def charUp (c : Char) : Char :=
  if 97 ≤ c.toNat ∧ c.toNat ≤ 122 then Char.ofNat (c.toNat - 32) else c

/-- `toUpperCase` over the string's characters. -/
def strToUpper (s : String) : String := ⟨s.data.map charUp⟩

/-- A JS whitespace character (the ASCII ones). -/
def isWsChar (c : Char) : Bool :=
  c = ' ' || c = '\t' || c = '\n' || c = '\r' ||
    c = Char.ofNat 11 || c = Char.ofNat 12

/-- `String.prototype.trim`: strip whitespace from both ends. -/
def strTrim (s : String) : String :=
  ⟨((s.data.dropWhile isWsChar).reverse.dropWhile isWsChar).reverse⟩

/-- `typeof symbol === 'string' ? symbol.trim().toUpperCase() : ''`. -/
def trimSymbol : Option String → String
  | some s => strToUpper (strTrim s)
  | none => ""

/-- The amount check of `handleTrade`: `!q || q <= 0` (true exactly for
falsy or non-positive numbers; note `Infinity` is neither). -/
def amountBad (n : JsNum) : Bool := n.falsy || n.le (.fin 0)

/-- The success tail of `handleTrade` (lines 331-352): zero positions are
removed from `holdings`, otherwise the updated holding is stored; the trade
entry is built and prepended to the history; the table is persisted. -/
def finishTrade (users : AccountTable) (username : String) (user : Account)
    (inp : TradeInput) (sym : String) (newBalance newPosition newAvgPrice
    rawPnl : JsNum) : AccountTable × Except TradeError TradeEntry :=
  let newHoldings :=
    if newPosition = .fin 0 then eraseKey user.holdings sym
    else insertKey user.holdings sym ⟨some newPosition, some newAvgPrice⟩
  let entry : TradeEntry :=
    ⟨inp.type, sym, inp.quantity, inp.price, newBalance, newPosition,
      rawPnl.toFixed2⟩
  let newUser : Account := ⟨newBalance, newHoldings, entry :: user.history⟩
  (insertKey users username newUser, .ok entry)

/-- `handleTrade` from the source: validation in order (side, symbol,
amounts, account existence), then the buy/sell accounting; every failure
path returns before any mutation, so it returns the input table
unchanged.  The first component is the persisted table after the call, the
second the response. -/
def executeTrade (users : AccountTable) (username : String)
    (inp : TradeInput) : AccountTable × Except TradeError TradeEntry :=
  if ¬(inp.type = "buy" ∨ inp.type = "sell") then (users, .error .invalidSide)
  else if trimSymbol inp.symbol = "" then (users, .error .invalidSymbol)
  else if amountBad inp.quantity || amountBad inp.price then
    (users, .error .invalidAmount)
  else
    match lookupKey users username with
    | none => (users, .error .unknownAccount)
    | some user =>
      let sym := trimSymbol inp.symbol
      let holding := ensureHoldingStructure (lookupKey user.holdings sym)
      if inp.type = "buy" then
        let cost := inp.price.mul inp.quantity
        if user.balance.lt cost then (users, .error .insufficientFunds)
        else
          let newPosition := holding.position.add inp.quantity
          let newAvgPrice :=
            if newPosition = .fin 0 then .fin 0
            else ((holding.averagePrice.mul holding.position).add
              (inp.price.mul inp.quantity)).div newPosition
          finishTrade users username user inp sym (user.balance.sub cost)
            newPosition newAvgPrice.toFixed2 (.fin 0)
      else
        if holding.position.lt inp.quantity then
          (users, .error .insufficientPosition)
        else
          let revenue := inp.price.mul inp.quantity
          let realizedPnl := (inp.price.sub holding.averagePrice).mul
            inp.quantity
          let newPosition := holding.position.sub inp.quantity
          let newAvgPrice :=
            if newPosition = .fin 0 then .fin 0 else holding.averagePrice
          finishTrade users username user inp sym (user.balance.add revenue)
            newPosition newAvgPrice realizedPnl

/-- `handleHistory` from the source: read-only view of a user's history,
optionally filtered to one symbol (an absent or empty filter, after
upper-casing, means no filtering). -/
def queryHistory (users : AccountTable) (username : String)
    (filter : Option String) : Except TradeError (List TradeEntry) :=
  match lookupKey users username with
  | none => .error .unknownAccount
  | some user =>
    let symbol := strToUpper (filter.getD "")
    .ok (if symbol = "" then user.history
      else user.history.filter (fun e => e.symbol = symbol))

/-- One successful `executeTrade` call chained at the in-memory level: the
engine turns table `us` into table `us'` and returns a trade entry.  This
relation deliberately omits the `writeUsers`/`readUsers` JSON round-trip
that separates real requests (under which non-finite numbers do not
survive, see `persistTable`/`StoreTradeStep`), so its reachable set is a
strict superset of the program's; it is used only where proving a property
over the superset is strictly stronger (the invariant preservation of the
zero-position theorem). -/
def TradeStep (us us' : AccountTable) : Prop :=
  ∃ name inp entry, executeTrade us name inp = (us', Except.ok entry)

/-- Reflexive-transitive closure of `TradeStep`: in-memory chaining of
`executeTrade` calls, a superset of the program's reachable states (failed
calls leave the table unchanged, see the atomicity theorem, so only
successful calls contribute steps).  The store-faithful relation is
`ReachableStore`. -/
def ReachableTable (us us' : AccountTable) : Prop :=
  Relation.ReflTransGen TradeStep us us'

/-- The JSON round-trip of one numeric field through
`writeUsers`/`readUsers`: `JSON.stringify` writes a finite number as
itself and `Infinity`, `-Infinity` and `NaN` as `null`; every place the
engine subsequently reads such a field applies `ToNumber` coercion — the
balance through `<`, `+=`, `-=` (and the claimed `>= 0`, for all of which
`ToNumber(null) = +0`), the holding fields through
`Number(_) || 0` in `ensureHoldingStructure` — so the persisted `null`
denotes the number 0 in every computation and is modelled as `fin 0`. -/
def persistNum (n : JsNum) : JsNum :=
  match n with
  | .fin q => .fin q
  | _ => .fin 0

/-- The JSON round-trip of an optional stored numeric field (an absent
field stays absent). -/
def persistOptNum (o : Option JsNum) : Option JsNum :=
  match o with
  | none => none
  | some n => some (persistNum n)

/-- The JSON round-trip of one stored holding. -/
def persistRawHolding (rh : RawHolding) : RawHolding :=
  ⟨persistOptNum rh.position, persistOptNum rh.averagePrice⟩

/-- Map a function over the values of an association list, keeping keys
(the shape of `JSON.stringify`/`JSON.parse` over an object's entries). -/
def mapValues {α β : Type} (f : α → β) (l : List (String × α)) :
    List (String × β) :=
  l.map (fun p => (p.1, f p.2))

/-- The JSON round-trip of one account record.  History entries' numeric
fields also round-trip (non-finite becomes `null`), but no code path ever
reads a stored history number back into a computation — history is only
filtered by symbol and returned — so the model carries them unchanged. -/
def persistAccount (acc : Account) : Account :=
  ⟨persistNum acc.balance, mapValues persistRawHolding acc.holdings,
    acc.history⟩

/-- The JSON round-trip of the whole table: `writeUsers` serializes the
entire table and the next request's `readUsers` parses it back.
(`normalizeUsers`, also run by `readUsers`, is the identity on the
trade-relevant fields of a trade-produced record — holdings present,
history an array of symbol-tagged entries — as the migration theorem
proves.) -/
def persistTable (us : AccountTable) : AccountTable :=
  mapValues persistAccount us

/-- One successful `executeTrade` request as the program actually chains
them: the trade engine's result table is persisted through the store's
JSON round-trip before the next request reads it. -/
def StoreTradeStep (us us' : AccountTable) : Prop :=
  ∃ name inp t entry, executeTrade us name inp = (t, Except.ok entry) ∧
    us' = persistTable t

/-- `us'` is a persisted state reachable from `us` by a sequence of
`executeTrade` requests, each followed by the store round-trip (failed
requests never call `writeUsers`, so the persisted state is untouched and
reflexivity covers them). -/
def ReachableStore (us us' : AccountTable) : Prop :=
  Relation.ReflTransGen StoreTradeStep us us'

section AssocLemmas

variable {α : Type}

lemma lookupKey_insertKey_self (l : List (String × α)) (k : String) (v : α) :
    lookupKey (insertKey l k v) k = some v := by
  induction l with
  | nil => simp [insertKey, lookupKey]
  | cons hd tl ih =>
    obtain ⟨k', v'⟩ := hd
    by_cases h : k' = k <;> simp [insertKey, lookupKey, h, ih]

lemma lookupKey_insertKey_ne (l : List (String × α)) (k : String) (v : α)
    (k'' : String) (h : k'' ≠ k) :
    lookupKey (insertKey l k v) k'' = lookupKey l k'' := by
  have h' : ¬ k = k'' := fun hh => h hh.symm
  induction l with
  | nil => simp [insertKey, lookupKey, h']
  | cons hd tl ih =>
    obtain ⟨k', v'⟩ := hd
    by_cases hk : k' = k
    · subst hk
      simp [insertKey, lookupKey, h']
    · by_cases hk2 : k' = k''
      · subst hk2
        simp [insertKey, lookupKey, hk]
      · simp [insertKey, lookupKey, hk, hk2, ih]

lemma lookupKey_eraseKey_self (l : List (String × α)) (k : String) :
    lookupKey (eraseKey l k) k = none := by
  induction l with
  | nil => simp [eraseKey, lookupKey]
  | cons hd tl ih =>
    obtain ⟨k', v'⟩ := hd
    by_cases h : k' = k <;> simp [eraseKey, lookupKey, h, ih]

lemma lookupKey_eraseKey_ne (l : List (String × α)) (k : String)
    (k'' : String) (h : k'' ≠ k) :
    lookupKey (eraseKey l k) k'' = lookupKey l k'' := by
  have h' : ¬ k = k'' := fun hh => h hh.symm
  induction l with
  | nil => simp [eraseKey, lookupKey]
  | cons hd tl ih =>
    obtain ⟨k', v'⟩ := hd
    by_cases hk : k' = k
    · subst hk
      simp [eraseKey, lookupKey, h', ih]
    · by_cases hk2 : k' = k''
      · subst hk2
        simp [eraseKey, lookupKey, hk]
      · simp [eraseKey, lookupKey, hk, hk2, ih]

end AssocLemmas

section JsNumLemmas

open JsNum

lemma jsMul_fin (a b : ℚ) : mul (fin a) (fin b) = fin (a * b) := rfl

lemma jsAdd_fin (a b : ℚ) : add (fin a) (fin b) = fin (a + b) := rfl

lemma jsSub_fin (a b : ℚ) : sub (fin a) (fin b) = fin (a - b) := by
  simp [sub, neg, add, sub_eq_add_neg]

lemma jsDiv_fin (a b : ℚ) (h : b ≠ 0) : div (fin a) (fin b) = fin (a / b) := by
  have ha : ((a.den : ℚ)) ≠ 0 := Nat.cast_ne_zero.mpr a.den_nz
  have hb : ((b.den : ℚ)) ≠ 0 := Nat.cast_ne_zero.mpr b.den_nz
  have ha' : (a.num : ℚ) = a * a.den := (div_eq_iff ha).mp (Rat.num_div_den a)
  have hb' : (b.num : ℚ) = b * b.den := (div_eq_iff hb).mp (Rat.num_div_den b)
  have : Rat.divInt (a.num * b.den) (a.den * b.num) = a / b := by
    rw [Rat.divInt_eq_div]
    push_cast
    rw [ha', hb', div_eq_div_iff (mul_ne_zero ha (mul_ne_zero h hb)) h]
    ring
  simp [div, h, this]

lemma round2_eq (x : ℚ) :
    round2 x = ((⌊x * 100 + 1 / 2⌋ : ℤ) : ℚ) / 100 := by
  unfold round2
  rw [Rat.floor_def', ← Rat.floor_def, Rat.divInt_eq_div, Rat.mkRat_eq_divInt,
    Rat.divInt_eq_div]
  norm_num

lemma jsLt_fin (a b : ℚ) : lt (fin a) (fin b) = decide (a < b) := rfl

lemma jsToFixed2_fin (a : ℚ) : toFixed2 (fin a) = fin (round2 a) := rfl

lemma amountBad_fin_iff (q : ℚ) : amountBad (fin q) = false ↔ 0 < q := by
  simp only [amountBad, falsy, le, Bool.or_eq_false_iff, decide_eq_false_iff_not]
  constructor
  · rintro ⟨h1, h2⟩
    exact lt_of_le_of_ne (not_le.mp h2).le (Ne.symm h1)
  · intro h
    exact ⟨ne_of_gt h, not_le.mpr h⟩

end JsNumLemmas

section TradeEngineLemmas

/-- The buy branch of `handleTrade`, once validation has passed. -/
lemma executeTrade_buy_eq (us : AccountTable) (name : String)
    (inp : TradeInput) (user : Account)
    (htype : inp.type = "buy")
    (hsym : ¬ trimSymbol inp.symbol = "")
    (hq : amountBad inp.quantity = false)
    (hp : amountBad inp.price = false)
    (huser : lookupKey us name = some user)
    (hfunds : user.balance.lt (inp.price.mul inp.quantity) = false) :
    executeTrade us name inp =
      (let sym := trimSymbol inp.symbol
       let holding := ensureHoldingStructure (lookupKey user.holdings sym)
       let newPosition := holding.position.add inp.quantity
       let newAvgPrice :=
         if newPosition = .fin 0 then JsNum.fin 0
         else ((holding.averagePrice.mul holding.position).add
           (inp.price.mul inp.quantity)).div newPosition
       finishTrade us name user inp sym
         (user.balance.sub (inp.price.mul inp.quantity))
         newPosition newAvgPrice.toFixed2 (.fin 0)) := by
  unfold executeTrade
  simp [htype, hsym, hq, hp, huser, hfunds]

/-- The sell branch of `handleTrade`, once validation has passed and the
position covers the quantity. -/
lemma executeTrade_sell_eq (us : AccountTable) (name : String)
    (inp : TradeInput) (user : Account)
    (htype : inp.type = "sell")
    (hsym : ¬ trimSymbol inp.symbol = "")
    (hq : amountBad inp.quantity = false)
    (hp : amountBad inp.price = false)
    (huser : lookupKey us name = some user)
    (hpos : (ensureHoldingStructure (lookupKey user.holdings
      (trimSymbol inp.symbol))).position.lt inp.quantity = false) :
    executeTrade us name inp =
      (let sym := trimSymbol inp.symbol
       let holding := ensureHoldingStructure (lookupKey user.holdings sym)
       let newPosition := holding.position.sub inp.quantity
       let newAvgPrice :=
         if newPosition = .fin 0 then JsNum.fin 0 else holding.averagePrice
       finishTrade us name user inp sym
         (user.balance.add (inp.price.mul inp.quantity))
         newPosition newAvgPrice
         ((inp.price.sub holding.averagePrice).mul inp.quantity)) := by
  unfold executeTrade
  have htype' : ¬ inp.type = "buy" := by simp [htype]
  simp [htype, htype', hsym, hq, hp, huser, hpos]

end TradeEngineLemmas

/-- A one-user table holding a single freshly registered account, the
start state of the reachability claims. -/
def tableFresh : AccountTable := [("u", freshAccount)]

/-- C3: every validation or business-rule failure of `executeTrade` leaves
the account table exactly as before the call (no partial mutation); in
particular a sell whose quantity exceeds the current position (with the
request otherwise valid) returns `InsufficientPosition` and changes
nothing. -/
theorem c3_atomicity_under_failure :
    (∀ (us : AccountTable) (name : String) (inp : TradeInput)
      (e : TradeError), (executeTrade us name inp).2 = .error e →
      (executeTrade us name inp).1 = us) ∧
    (∀ (us : AccountTable) (name : String) (inp : TradeInput)
      (user : Account), inp.type = "sell" →
      ¬ trimSymbol inp.symbol = "" →
      amountBad inp.quantity = false → amountBad inp.price = false →
      lookupKey us name = some user →
      (ensureHoldingStructure (lookupKey user.holdings
        (trimSymbol inp.symbol))).position.lt inp.quantity = true →
      executeTrade us name inp = (us, .error .insufficientPosition)) := by
  constructor
  · intro us name inp e h
    simp only [executeTrade] at h ⊢
    cases hl : lookupKey us name with
    | none =>
      simp only [hl]
      split_ifs <;> rfl
    | some user =>
      simp only [hl] at h ⊢
      split_ifs at h ⊢ <;> first | rfl | simp [finishTrade] at h
  · intro us name inp user htype hsym hq hp huser hpos
    have htype' : ¬ inp.type = "buy" := by simp [htype]
    simp [executeTrade, htype, htype', hsym, hq, hp, huser, hpos]

/-- Witness for C3: selling 20 units of HOG from a fresh (empty-holdings)
account fails with `InsufficientPosition` and leaves the table unchanged. -/
theorem c3_atomicity_under_failure_witness :
    executeTrade tableFresh "u" ⟨"sell", some "HOG", .fin 20, .fin 100⟩ =
      (tableFresh, .error .insufficientPosition) :=
  c3_atomicity_under_failure.2 tableFresh "u"
    ⟨"sell", some "HOG", .fin 20, .fin 100⟩ freshAccount rfl
    (by decide) (by decide) (by decide) rfl (by decide)

/-- C4: a successful buy of quantity `q` at price `p` against a holding
with position `n` and average cost `c` yields position `n + q`, average
cost `(c*n + p*q)/(n+q)` rounded to 2 decimal places, debits the balance
by exactly `p * q` (unrounded), and records a realized P&L of 0. -/
theorem c4_buy_accounting
    (us : AccountTable) (name : String) (inp : TradeInput)
    (entry : TradeEntry) (user : Account) (q p n c b : ℚ)
    (htype : inp.type = "buy")
    (hq : inp.quantity = .fin q) (hp : inp.price = .fin p)
    (huser : lookupKey us name = some user)
    (hb : user.balance = .fin b)
    (hh : ensureHoldingStructure (lookupKey user.holdings
      (trimSymbol inp.symbol)) = ⟨.fin n, .fin c⟩)
    (hn : 0 ≤ n)
    (hok : (executeTrade us name inp).2 = Except.ok entry) :
    entry.positionAfter = .fin (n + q) ∧
    entry.realizedPnl = .fin 0 ∧
    ∃ user', lookupKey (executeTrade us name inp).1 name = some user' ∧
      user'.balance = .fin (b - p * q) ∧
      lookupKey user'.holdings (trimSymbol inp.symbol) =
        some ⟨some (.fin (n + q)),
          some (.fin (JsNum.round2 ((c * n + p * q) / (n + q))))⟩ := by
  have hsym : ¬ trimSymbol inp.symbol = "" := by
    intro hcon
    simp [executeTrade, htype, hcon] at hok
  have hqv : amountBad inp.quantity = false := by
    by_cases hcon : amountBad inp.quantity = true
    · exfalso; simp [executeTrade, htype, hsym, hcon] at hok
    · simpa using hcon
  have hpv : amountBad inp.price = false := by
    by_cases hcon : amountBad inp.price = true
    · exfalso; simp [executeTrade, htype, hsym, hqv, hcon] at hok
    · simpa using hcon
  have hfunds : user.balance.lt (inp.price.mul inp.quantity) = false := by
    by_cases hcon : user.balance.lt (inp.price.mul inp.quantity) = true
    · exfalso
      simp [executeTrade, htype, hsym, hqv, hpv, huser, hcon] at hok
    · simpa using hcon
  have hq0 : 0 < q := by
    rw [hq] at hqv
    exact (amountBad_fin_iff q).mp hqv
  have hnq : n + q ≠ 0 := by positivity
  have hnefin : JsNum.fin (n + q) ≠ JsNum.fin 0 := by
    simp [hnq]
  have heq := executeTrade_buy_eq us name inp user htype hsym hqv hpv huser
    hfunds
  rw [heq] at hok ⊢
  simp only [hq, hp, hb, hh, jsMul_fin, jsAdd_fin, jsSub_fin, jsLt_fin,
    jsToFixed2_fin, finishTrade, if_neg hnefin,
    jsDiv_fin _ _ hnq] at hok ⊢
  have hentry := Except.ok.inj hok
  subst hentry
  refine ⟨rfl, ?_, ?_⟩
  · show JsNum.fin (JsNum.round2 0) = JsNum.fin 0
    decide
  · refine ⟨_, lookupKey_insertKey_self _ _ _, rfl, ?_⟩
    simp only [lookupKey_insertKey_self]

/-- Witness for C4: buying 10 units of HOG at 120 from a fresh account
(position 0, average cost 0, balance 1,000,000) gives position 10, average
cost 120, balance 998,800 and realized P&L 0. -/
theorem c4_buy_accounting_witness :
    (executeTrade tableFresh "u" ⟨"buy", some "HOG", .fin 10, .fin 120⟩).2 =
      Except.ok ⟨"buy", "HOG", .fin 10, .fin 120, .fin 998800, .fin 10,
        .fin 0⟩ ∧
    ((⟨"buy", "HOG", .fin 10, .fin 120, .fin 998800, .fin 10, .fin 0⟩ :
        TradeEntry).positionAfter = .fin (0 + 10) ∧
      (⟨"buy", "HOG", .fin 10, .fin 120, .fin 998800, .fin 10, .fin 0⟩ :
        TradeEntry).realizedPnl = .fin 0 ∧
      ∃ user', lookupKey (executeTrade tableFresh "u"
          ⟨"buy", some "HOG", .fin 10, .fin 120⟩).1 "u" = some user' ∧
        user'.balance = .fin (1000000 - 120 * 10) ∧
        lookupKey user'.holdings (trimSymbol (some "HOG")) =
          some ⟨some (.fin (0 + 10)),
            some (.fin (JsNum.round2 ((0 * 0 + 120 * 10) / (0 + 10))))⟩) :=
  ⟨rfl, c4_buy_accounting tableFresh "u"
    ⟨"buy", some "HOG", .fin 10, .fin 120⟩ _ freshAccount 10 120 0 0 1000000
    rfl rfl rfl rfl rfl rfl (by norm_num) rfl⟩

/-- C5: a successful sell of quantity `q` at price `p` against a holding
with position `n` (necessarily `n ≥ q`) and average cost `c` records a
realized P&L of `(p - c) * q` rounded to 2 decimal places, credits the
balance by exactly `p * q`, and leaves position `n - q`. -/
theorem c5_sell_accounting
    (us : AccountTable) (name : String) (inp : TradeInput)
    (entry : TradeEntry) (user : Account) (q p n c b : ℚ)
    (htype : inp.type = "sell")
    (hq : inp.quantity = .fin q) (hp : inp.price = .fin p)
    (huser : lookupKey us name = some user)
    (hb : user.balance = .fin b)
    (hh : ensureHoldingStructure (lookupKey user.holdings
      (trimSymbol inp.symbol)) = ⟨.fin n, .fin c⟩)
    (hok : (executeTrade us name inp).2 = Except.ok entry) :
    q ≤ n ∧
    entry.realizedPnl = .fin (JsNum.round2 ((p - c) * q)) ∧
    entry.positionAfter = .fin (n - q) ∧
    ∃ user', lookupKey (executeTrade us name inp).1 name = some user' ∧
      user'.balance = .fin (b + p * q) := by
  have htype' : ¬ inp.type = "buy" := by simp [htype]
  have hsym : ¬ trimSymbol inp.symbol = "" := by
    intro hcon
    simp [executeTrade, htype, hcon] at hok
  have hqv : amountBad inp.quantity = false := by
    by_cases hcon : amountBad inp.quantity = true
    · exfalso; simp [executeTrade, htype, hsym, hcon] at hok
    · simpa using hcon
  have hpv : amountBad inp.price = false := by
    by_cases hcon : amountBad inp.price = true
    · exfalso; simp [executeTrade, htype, hsym, hqv, hcon] at hok
    · simpa using hcon
  have hpos : (ensureHoldingStructure (lookupKey user.holdings
      (trimSymbol inp.symbol))).position.lt inp.quantity = false := by
    by_cases hcon : (ensureHoldingStructure (lookupKey user.holdings
        (trimSymbol inp.symbol))).position.lt inp.quantity = true
    · exfalso
      simp [executeTrade, htype, htype', hsym, hqv, hpv, huser, hcon] at hok
    · simpa using hcon
  have hqn : q ≤ n := by
    rw [hh, hq] at hpos
    simpa [jsLt_fin] using hpos
  have heq := executeTrade_sell_eq us name inp user htype hsym hqv hpv huser
    hpos
  rw [heq] at hok ⊢
  simp only [hq, hp, hb, hh, jsMul_fin, jsAdd_fin, jsSub_fin,
    jsToFixed2_fin, finishTrade] at hok ⊢
  have hentry := Except.ok.inj hok
  subst hentry
  exact ⟨hqn, rfl, rfl, _, lookupKey_insertKey_self _ _ _, rfl⟩

/-- Witness for C5: with a holding of 15 units of HOG at average cost
123.33 and balance 998,150, selling 15 at 140 realizes
round((140 - 123.33) * 15, 2) = 250.05 and credits 140 * 15. -/
theorem c5_sell_accounting_witness :
    (executeTrade [("u", ⟨.fin 998150,
        [("HOG", ⟨some (.fin 15), some (.fin (mkRat 12333 100))⟩)], []⟩)] "u"
      ⟨"sell", some "HOG", .fin 15, .fin 140⟩).2 =
      Except.ok ⟨"sell", "HOG", .fin 15, .fin 140, .fin 1000250, .fin 0,
        .fin (mkRat 5001 20)⟩ ∧
    ((15 : ℚ) ≤ 15 ∧
      (⟨"sell", "HOG", .fin 15, .fin 140, .fin 1000250, .fin 0,
          .fin (mkRat 5001 20)⟩ : TradeEntry).realizedPnl =
        .fin (JsNum.round2 ((140 - mkRat 12333 100) * 15)) ∧
      (⟨"sell", "HOG", .fin 15, .fin 140, .fin 1000250, .fin 0,
          .fin (mkRat 5001 20)⟩ : TradeEntry).positionAfter =
        .fin (15 - 15) ∧
      ∃ user', lookupKey (executeTrade [("u", ⟨.fin 998150,
          [("HOG", ⟨some (.fin 15), some (.fin (mkRat 12333 100))⟩)], []⟩)] "u"
          ⟨"sell", some "HOG", .fin 15, .fin 140⟩).1 "u" = some user' ∧
        user'.balance = .fin (998150 + 140 * 15)) :=
  ⟨by decide, c5_sell_accounting _ "u"
    ⟨"sell", some "HOG", .fin 15, .fin 140⟩ _
    ⟨.fin 998150, [("HOG", ⟨some (.fin 15), some (.fin (mkRat 12333 100))⟩)],
      []⟩ 15 140 15 (mkRat 12333 100) 998150
    rfl rfl rfl rfl rfl (by decide) (by decide)⟩

/-- C6 counterexample: an infinite price passes the amount validation of
`handleTrade` (`!p || p <= 0` is false for `Infinity`), so a buy at price
`Infinity` from a fresh account is rejected as `InsufficientFunds`, not as
`InvalidAmount` as the claim requires. -/
theorem c6_infinity_passes_amount_validation :
    (executeTrade tableFresh "u" ⟨"buy", some "HOG", .fin 1, .inf⟩).2 =
      .error .insufficientFunds ∧
    ¬ (executeTrade tableFresh "u" ⟨"buy", some "HOG", .fin 1, .inf⟩).2 =
      .error .invalidAmount := by
  constructor
  · decide
  · decide

/-- C6 amended: validation proceeds in order with the first failure winning
and no mutation on any failure — side must be buy or sell else
`InvalidSide`; the (trimmed, upper-cased) symbol must be non-empty else
`InvalidSymbol`; `quantity` and `price` must each coerce to a positive
number else `InvalidAmount`; the account must exist else `UnknownAccount`.
The amount check rejects `NaN`, zero and negative values but does not test
finiteness: `Infinity` passes it. -/
theorem c6_validation_order :
    (∀ (us : AccountTable) (name : String) (inp : TradeInput),
      (¬ (inp.type = "buy" ∨ inp.type = "sell") →
        executeTrade us name inp = (us, .error .invalidSide)) ∧
      ((inp.type = "buy" ∨ inp.type = "sell") →
        trimSymbol inp.symbol = "" →
        executeTrade us name inp = (us, .error .invalidSymbol)) ∧
      ((inp.type = "buy" ∨ inp.type = "sell") →
        ¬ trimSymbol inp.symbol = "" →
        (amountBad inp.quantity || amountBad inp.price) = true →
        executeTrade us name inp = (us, .error .invalidAmount)) ∧
      ((inp.type = "buy" ∨ inp.type = "sell") →
        ¬ trimSymbol inp.symbol = "" →
        (amountBad inp.quantity || amountBad inp.price) = false →
        lookupKey us name = none →
        executeTrade us name inp = (us, .error .unknownAccount))) ∧
    (∀ q : ℚ, amountBad (.fin q) = true ↔ q ≤ 0) ∧
    amountBad .nan = true ∧ amountBad .inf = false ∧
    amountBad .ninf = true := by
  refine ⟨fun us name inp => ⟨?_, ?_, ?_, ?_⟩, ?_, by decide, by decide,
    by decide⟩
  · intro h
    simp [executeTrade, h]
  · intro h hsym
    simp [executeTrade, h, hsym]
  · intro h hsym hamt
    simp [executeTrade, h, hsym, hamt]
  · intro h hsym hamt hl
    simp [executeTrade, h, hsym, hamt, hl]
  · intro q
    simp only [amountBad, JsNum.falsy, JsNum.le, Bool.or_eq_true,
      decide_eq_true_eq]
    exact ⟨fun h => h.elim le_of_eq id, Or.inr⟩

/-- Witness for C6: a side that is neither buy nor sell is rejected as
`InvalidSide`, and a zero quantity as `InvalidAmount`, both without
mutation. -/
theorem c6_validation_order_witness :
    executeTrade tableFresh "u" ⟨"hold", some "HOG", .fin 1, .fin 1⟩ =
      (tableFresh, .error .invalidSide) ∧
    executeTrade tableFresh "u" ⟨"buy", some "HOG", .fin 0, .fin 1⟩ =
      (tableFresh, .error .invalidAmount) :=
  ⟨(c6_validation_order.1 tableFresh "u"
      ⟨"hold", some "HOG", .fin 1, .fin 1⟩).1 (by decide),
   (c6_validation_order.1 tableFresh "u"
      ⟨"buy", some "HOG", .fin 0, .fin 1⟩).2.2.1 (by decide) (by decide)
      (by decide)⟩

/-- No stored holding of any account of the table has position exactly 0
(the source deletes a symbol whose position reaches 0 before storing). -/
def NoZeroStoredPositions (us : AccountTable) : Prop :=
  ∀ name acc, lookupKey us name = some acc →
    ∀ s rh, lookupKey acc.holdings s = some rh → rh.position ≠ some (.fin 0)

/-- Inversion of a successful `executeTrade`: the new table stores, for the
acting user, the entry's post-trade balance, a history with the entry
prepended, and holdings in which the traded symbol is erased when the
post-trade position is exactly 0 and otherwise overwritten with the
post-trade position. -/
lemma finishTrade_shape (us : AccountTable) (name : String) (user : Account)
    (inp : TradeInput) (sym : String)
    (newBalance newPosition newAvgPrice rawPnl : JsNum)
    (us' : AccountTable) (entry : TradeEntry)
    (h : finishTrade us name user inp sym newBalance newPosition newAvgPrice
      rawPnl = (us', Except.ok entry)) :
    us' = insertKey us name ⟨entry.balanceAfter,
      (if entry.positionAfter = .fin 0
        then eraseKey user.holdings sym
        else insertKey user.holdings sym
          ⟨some entry.positionAfter, some newAvgPrice⟩),
      entry :: user.history⟩ := by
  simp only [finishTrade] at h
  rw [Prod.mk.injEq] at h
  obtain ⟨h1, h2⟩ := h
  obtain rfl := Except.ok.inj h2
  exact h1.symm

lemma executeTrade_ok_shape (us : AccountTable) (name : String)
    (inp : TradeInput) (us' : AccountTable) (entry : TradeEntry)
    (h : executeTrade us name inp = (us', Except.ok entry)) :
    ∃ user newAvg, lookupKey us name = some user ∧
      us' = insertKey us name ⟨entry.balanceAfter,
        (if entry.positionAfter = .fin 0
          then eraseKey user.holdings (trimSymbol inp.symbol)
          else insertKey user.holdings (trimSymbol inp.symbol)
            ⟨some entry.positionAfter, some newAvg⟩),
        entry :: user.history⟩ := by
  unfold executeTrade at h
  split_ifs at h <;>
    try (rw [Prod.mk.injEq] at h; exact Except.noConfusion h.2)
  all_goals
    cases hl : lookupKey us name with
    | none =>
      simp only [hl] at h
      rw [Prod.mk.injEq] at h
      exact Except.noConfusion h.2
    | some user =>
      simp only [hl] at h
      split_ifs at h <;>
        first
        | (rw [Prod.mk.injEq] at h; exact Except.noConfusion h.2)
        | exact ⟨user, _, rfl, finishTrade_shape _ _ _ _ _ _ _ _ _ _ _ h⟩

/-- C7: from any table satisfying the no-zero-position invariant (as the
fresh table does vacuously), every table reachable by `executeTrade` calls
still satisfies it; moreover any single trade whose post-trade position is
exactly 0 leaves the traded symbol absent from the acting user's
holdings. -/
theorem c7_zero_position_cleanup :
    (∀ us us', NoZeroStoredPositions us → ReachableTable us us' →
      NoZeroStoredPositions us') ∧
    (∀ (us : AccountTable) (name : String) (inp : TradeInput)
      (us' : AccountTable) (entry : TradeEntry),
      executeTrade us name inp = (us', Except.ok entry) →
      entry.positionAfter = .fin 0 →
      ∀ acc', lookupKey us' name = some acc' →
        lookupKey acc'.holdings (trimSymbol inp.symbol) = none) := by
  have hstep : ∀ us us', TradeStep us us' → NoZeroStoredPositions us →
      NoZeroStoredPositions us' := by
    intro us us' hs hinv
    obtain ⟨name, inp, entry, heq⟩ := hs
    obtain ⟨user, newAvg, hl, rfl⟩ := executeTrade_ok_shape _ _ _ _ _ heq
    intro name' acc' hacc' s rh hrh
    by_cases hn : name' = name
    · subst hn
      rw [lookupKey_insertKey_self] at hacc'
      obtain rfl := Option.some.inj hacc'
      simp only at hrh
      split_ifs at hrh with hz
      · by_cases hs' : s = trimSymbol inp.symbol
        · subst hs'
          rw [lookupKey_eraseKey_self] at hrh
          exact absurd hrh (by simp)
        · rw [lookupKey_eraseKey_ne _ _ _ hs'] at hrh
          exact hinv name' user hl s rh hrh
      · by_cases hs' : s = trimSymbol inp.symbol
        · subst hs'
          rw [lookupKey_insertKey_self] at hrh
          obtain rfl := Option.some.inj hrh
          intro hcon
          exact hz (Option.some.inj hcon)
        · rw [lookupKey_insertKey_ne _ _ _ _ hs'] at hrh
          exact hinv name' user hl s rh hrh
    · rw [lookupKey_insertKey_ne _ _ _ _ hn] at hacc'
      exact hinv name' acc' hacc' s rh hrh
  refine ⟨?_, ?_⟩
  · intro us us' hinv hreach
    induction hreach with
    | refl => exact hinv
    | tail _ hbc ih => exact hstep _ _ hbc ih
  · intro us name inp us' entry heq hz acc' hacc'
    obtain ⟨user, newAvg, hl, rfl⟩ := executeTrade_ok_shape _ _ _ _ _ heq
    rw [lookupKey_insertKey_self] at hacc'
    obtain rfl := Option.some.inj hacc'
    simp only [if_pos hz]
    exact lookupKey_eraseKey_self _ _

/-- The one-user table from which the C7 witness trades: 10 HOG held at
average cost 120, balance 998,800. -/
def c7start : AccountTable :=
  [("u", ⟨.fin 998800, [("HOG", ⟨some (.fin 10), some (.fin 120)⟩)], []⟩)]

/-- The table after the C7 witness sells the whole position: HOG absent. -/
def c7after : AccountTable :=
  [("u", ⟨.fin 1000000, [],
    [⟨"sell", "HOG", .fin 10, .fin 120, .fin 1000000, .fin 0, .fin 0⟩]⟩)]

/-- Witness for C7: the concrete one-holding table satisfies the invariant
(hence so does everything reachable from it), and selling the whole 10-HOG
position drives the position to 0 and deletes the HOG key. -/
theorem c7_zero_position_cleanup_witness :
    NoZeroStoredPositions c7start ∧
    ∀ acc', lookupKey c7after "u" = some acc' →
      lookupKey acc'.holdings (trimSymbol (some "HOG")) = none := by
  have hinv : NoZeroStoredPositions c7start := by
    intro name acc hacc s rh hrh
    simp only [c7start, lookupKey] at hacc
    split_ifs at hacc with h1
    · obtain rfl := Option.some.inj hacc
      simp only [lookupKey] at hrh
      split_ifs at hrh with h2
      · obtain rfl := Option.some.inj hrh
        decide
  refine ⟨c7_zero_position_cleanup.1 _ _ hinv Relation.ReflTransGen.refl, ?_⟩
  exact c7_zero_position_cleanup.2 c7start "u"
    ⟨"sell", some "HOG", .fin 10, .fin 120⟩ c7after
    ⟨"sell", "HOG", .fin 10, .fin 120, .fin 1000000, .fin 0, .fin 0⟩
    (by decide) (by decide)

/-- C8: `queryHistory` is read-only and returns, for an existing account,
exactly the stored history when the filter is absent or empty, and exactly
the entries whose symbol equals the upper-cased filter otherwise, always a
subsequence of the stored history in stored (newest-first) order; for a
missing account it fails with `UnknownAccount`. -/
theorem c8_query_history :
    ∀ (us : AccountTable) (name : String) (filter : Option String),
      (lookupKey us name = none →
        queryHistory us name filter = .error .unknownAccount) ∧
      (∀ user, lookupKey us name = some user →
        queryHistory us name filter =
          .ok (if strToUpper (filter.getD "") = "" then user.history
            else user.history.filter
              (fun e => e.symbol = strToUpper (filter.getD ""))) ∧
        ∀ l, queryHistory us name filter = .ok l →
          l.Sublist user.history) := by
  intro us name filter
  constructor
  · intro hl
    simp [queryHistory, hl]
  · intro user hl
    constructor
    · simp [queryHistory, hl]
    · intro l hres
      simp only [queryHistory, hl] at hres
      obtain rfl := Except.ok.inj hres
      split_ifs
      · exact List.Sublist.refl _
      · exact List.filter_sublist _

/-- One raw history entry as stored on disk: its `symbol` field as stored
(`none` when missing; `some ""` is also falsy and gets retagged), plus the
remaining trade-record fields, which normalization copies verbatim
(modelled as one opaque payload). -/
structure RawHistEntry where
  symbol : Option String
  payload : Nat
deriving DecidableEq, Repr

/-- A stored user record as read from disk, restricted to the fields the
normalization inspects.  `holdings = none` models a record without a
(truthy) holdings mapping — the legacy shape; `position = some p` a legacy
numeric `position` field (absent or non-numeric is `none`); `averagePrice`
the legacy field through `Number(_ || 0)` coercion; `history = none` a
missing or non-array history (entries may be `null`); `aiInsights` whether
the record has a truthy `aiInsights`. -/
structure RawUser where
  balance : JsNum
  holdings : Option (List (String × RawHolding))
  position : Option JsNum
  averagePrice : Option JsNum
  history : Option (List (Option RawHistEntry))
  aiInsights : Bool
deriving DecidableEq, Repr

/-- The per-entry step of the history normalization: a non-null entry with
a falsy `symbol` is retagged `{...entry, symbol: 'HOG'}`; the boolean
reports whether the entry changed (the `historyUpdated` flag). -/
def fixHistEntry (e : Option RawHistEntry) : Option RawHistEntry × Bool :=
  match e with
  | some he =>
      if he.symbol = none ∨ he.symbol = some "" then
        (some ⟨some "HOG", he.payload⟩, true)
      else (some he, false)
  | none => (none, false)

/-- The per-user body of `normalizeUsers` from the source: a record without
holdings gets its legacy `position`/`averagePrice` pair migrated to a
`holdings.HOG` entry (only when the position is a nonzero number) and the
legacy fields deleted; a missing or non-array history becomes `[]`; a
missing `aiInsights` becomes `{}`; history entries missing a symbol are
tagged `HOG`.  The boolean is the accumulated `updated` flag. -/
def normalizeUser (u : RawUser) : RawUser × Bool :=
  let hPart :=
    match u.holdings with
    | some hs => (hs, u.position, u.averagePrice, false)
    | none =>
        ((match u.position with
          | some p =>
              if p ≠ .fin 0 then
                [("HOG", ⟨some p, some (u.averagePrice.getD (.fin 0))⟩)]
              else []
          | none => []), none, none, true)
  let histPart :=
    match u.history with
    | some l => (l, false)
    | none => ([], true)
  let aiUpd := if u.aiInsights then false else true
  let fixedPairs := histPart.1.map fixHistEntry
  (⟨u.balance, some hPart.1, hPart.2.1, hPart.2.2.1,
      some (fixedPairs.map Prod.fst), true⟩,
    hPart.2.2.2 || histPart.2 || aiUpd || fixedPairs.any Prod.snd)

/-- `normalizeUsers` over the whole table (`null` users are skipped), and
`readUsers`: the table is normalized on load and the boolean reports
whether `writeUsers` rewrote the store (true exactly when the `updated`
flag was set). -/
def normalizeUsers (users : List (String × Option RawUser)) :
    List (String × Option RawUser) × Bool :=
  let mapped := users.map (fun p =>
    match p.2 with
    | none => ((p.1, (none : Option RawUser)), false)
    | some u => ((p.1, some (normalizeUser u).1), (normalizeUser u).2))
  (mapped.map Prod.fst, mapped.any Prod.snd)

/-- A non-null history entry whose stored symbol is truthy (normalization
leaves it alone). -/
def entrySymOk : Option RawHistEntry → Prop
  | none => True
  | some he => ¬ he.symbol = none ∧ ¬ he.symbol = some ""

/-- A record already in the current shape: holdings mapping present, a
(real array) history all of whose entries carry a symbol, and an
`aiInsights` object. -/
def WellFormedRaw (u : RawUser) : Prop :=
  (∃ hs, u.holdings = some hs) ∧
  (∃ l, u.history = some l ∧ ∀ e ∈ l, entrySymOk e) ∧
  u.aiInsights = true

lemma normalizeUsers_cons_none (name : String)
    (tl : List (String × Option RawUser)) :
    normalizeUsers ((name, none) :: tl) =
      ((name, none) :: (normalizeUsers tl).1, (normalizeUsers tl).2) := rfl

lemma normalizeUsers_cons_some (name : String) (u : RawUser)
    (tl : List (String × Option RawUser)) :
    normalizeUsers ((name, some u) :: tl) =
      ((name, some (normalizeUser u).1) :: (normalizeUsers tl).1,
        ((normalizeUser u).2 || (normalizeUsers tl).2)) := rfl

lemma fixHistEntry_of_ok (e : Option RawHistEntry) (h : entrySymOk e) :
    fixHistEntry e = (e, false) := by
  cases e with
  | none => rfl
  | some he =>
    obtain ⟨h1, h2⟩ := h
    simp [fixHistEntry, h1, h2]

lemma fixHistEntry_flag (e : Option RawHistEntry)
    (h : (fixHistEntry e).2 = false) : (fixHistEntry e).1 = e := by
  cases e with
  | none => rfl
  | some he =>
    by_cases hs : he.symbol = none ∨ he.symbol = some ""
    · simp [fixHistEntry, hs] at h
    · simp [fixHistEntry, hs]

lemma map_fixHist_id (l : List (Option RawHistEntry))
    (h : ∀ e ∈ l, (fixHistEntry e).1 = e) :
    l.map (Prod.fst ∘ fixHistEntry) = l := by
  induction l with
  | nil => rfl
  | cons a t ih =>
    simp only [List.map_cons, Function.comp_apply]
    rw [h a (by simp), ih (fun e he => h e (by simp [he]))]

lemma normalizeUser_flag (u : RawUser) (h : (normalizeUser u).2 = false) :
    (normalizeUser u).1 = u := by
  obtain ⟨balance, holdings, position, averagePrice, history, ai⟩ := u
  cases holdings with
  | none => simp [normalizeUser] at h
  | some hs =>
    cases history with
    | none => simp [normalizeUser] at h
    | some l =>
      cases ai with
      | false => simp [normalizeUser] at h
      | true =>
        simp only [normalizeUser, if_true, Bool.false_or, Bool.or_self]
          at h ⊢
        simp only [List.any_eq_false, List.mem_map] at h
        have hall : ∀ e ∈ l, (fixHistEntry e).1 = e := by
          intro e he
          refine fixHistEntry_flag e ?_
          have := h (fixHistEntry e) ⟨e, he, rfl⟩
          simpa using this
        simp only [List.map_map, map_fixHist_id l hall]

/-- C9: the legacy single `position`/`averagePrice` pair (a nonzero numeric
position) becomes a `holdings` entry under symbol HOG with the legacy
fields removed and the store marked for rewrite; a missing or non-array
history becomes the empty list and every surviving entry passes through
the symbol-tagging step, which tags symbol-less entries `HOG`; records
already in the current shape come back unchanged with no rewrite; and
whenever the store is not rewritten the table is returned exactly as
loaded. -/
theorem c9_migration_on_load :
    (∀ (u : RawUser) (p : JsNum), u.holdings = none → u.position = some p →
      ¬ p = .fin 0 →
      (normalizeUser u).1.holdings =
        some [("HOG", ⟨some p, some (u.averagePrice.getD (.fin 0))⟩)] ∧
      (normalizeUser u).1.position = none ∧
      (normalizeUser u).1.averagePrice = none ∧
      (normalizeUser u).2 = true) ∧
    (∀ u : RawUser, (normalizeUser u).1.history =
      some ((u.history.getD []).map (fun e => (fixHistEntry e).1))) ∧
    (∀ he : RawHistEntry, he.symbol = none →
      fixHistEntry (some he) = (some ⟨some "HOG", he.payload⟩, true)) ∧
    (∀ u : RawUser, WellFormedRaw u → normalizeUser u = (u, false)) ∧
    (∀ users, (normalizeUsers users).2 = false →
      (normalizeUsers users).1 = users) := by
  refine ⟨?_, ?_, ?_, ?_, ?_⟩
  · intro u p h1 h2 h3
    simp [normalizeUser, h1, h2, h3]
  · intro u
    obtain ⟨balance, holdings, position, averagePrice, history, ai⟩ := u
    cases holdings <;> cases history <;> simp [normalizeUser]
  · intro he h
    simp [fixHistEntry, h]
  · intro u hwf
    obtain ⟨⟨hs, hh⟩, ⟨l, hl, hok⟩, hai⟩ := hwf
    have hflag : (normalizeUser u).2 = false := by
      simp only [normalizeUser, hh, hl, hai, if_true, Bool.or_self,
        Bool.false_or]
      simp only [List.any_eq_false, List.mem_map]
      rintro x ⟨e, he, rfl⟩
      rw [fixHistEntry_of_ok e (hok e he)]
      simp
    rw [Prod.ext_iff]
    exact ⟨normalizeUser_flag u hflag, hflag⟩
  · intro users
    induction users with
    | nil => intro hflag; rfl
    | cons hd tl ih =>
      obtain ⟨name, mu⟩ := hd
      cases mu with
      | none =>
        intro hflag
        have hflag' : (normalizeUsers tl).2 = false := hflag
        show (name, (none : Option RawUser)) :: (normalizeUsers tl).1 =
          (name, none) :: tl
        rw [ih hflag']
      | some u =>
        intro hflag
        have hflag' : ((normalizeUser u).2 || (normalizeUsers tl).2) =
          false := hflag
        rw [Bool.or_eq_false_iff] at hflag'
        show (name, some (normalizeUser u).1) :: (normalizeUsers tl).1 =
          (name, some u) :: tl
        rw [normalizeUser_flag u hflag'.1, ih hflag'.2]

/-- Witness for C9: a legacy record (position 3, averagePrice 50, no
holdings mapping, no history array) is migrated to a `holdings.HOG` entry,
the legacy fields are deleted, and the store is rewritten. -/
theorem c9_migration_on_load_witness :
    ((normalizeUser ⟨.fin 500, none, some (.fin 3), some (.fin 50), none,
        false⟩).1.holdings =
      some [("HOG", ⟨some (.fin 3),
        some ((some (JsNum.fin 50)).getD (.fin 0))⟩)] ∧
      (normalizeUser ⟨.fin 500, none, some (.fin 3), some (.fin 50), none,
        false⟩).1.position = none ∧
      (normalizeUser ⟨.fin 500, none, some (.fin 3), some (.fin 50), none,
        false⟩).1.averagePrice = none ∧
      (normalizeUser ⟨.fin 500, none, some (.fin 3), some (.fin 50), none,
        false⟩).2 = true) ∧
    normalizeUser ⟨.fin 1000000, some [], none, none, some [], true⟩ =
      (⟨.fin 1000000, some [], none, none, some [], true⟩, false) :=
  ⟨c9_migration_on_load.1
      ⟨.fin 500, none, some (.fin 3), some (.fin 50), none, false⟩
      (.fin 3) rfl rfl (by decide),
    c9_migration_on_load.2.2.2.1
      ⟨.fin 1000000, some [], none, none, some [], true⟩
      ⟨⟨[], rfl⟩, ⟨[], rfl, by simp⟩, rfl⟩⟩

/-- The account used by the C8 witness: three history entries, newest
first, over two symbols. -/
def c8acc : Account := ⟨.fin 0, [],
  [⟨"sell", "HOG", .fin 1, .fin 2, .fin 3, .fin 0, .fin 0⟩,
   ⟨"buy", "GOLD", .fin 1, .fin 2, .fin 3, .fin 1, .fin 0⟩,
   ⟨"buy", "HOG", .fin 1, .fin 2, .fin 3, .fin 1, .fin 0⟩]⟩

/-- The one-user table of the C8 witness. -/
def c8tab : AccountTable := [("v", c8acc)]

/-- Witness for C8: querying with the lower-case filter "hog" returns
exactly the HOG entries of the stored history, a subsequence of it. -/
theorem c8_query_history_witness :
    queryHistory c8tab "v" (some "hog") =
      .ok (if strToUpper ((some "hog").getD "") = "" then c8acc.history
        else c8acc.history.filter
          (fun e => e.symbol = strToUpper ((some "hog").getD ""))) ∧
    ∀ l, queryHistory c8tab "v" (some "hog") = .ok l →
      l.Sublist c8acc.history :=
  (c8_query_history c8tab "v" (some "hog")).2 c8acc rfl

/-- A table whose stored HOG holding has a numeric position but a missing
`averagePrice` field — malformed in the sense of C10. -/
def c10tab : AccountTable :=
  [("u", ⟨.fin 1000, [("HOG", ⟨some (.fin 3), none⟩)], []⟩)]

/-- The same table with the malformed HOG holding removed. -/
def c10tabAbsent : AccountTable := [("u", ⟨.fin 1000, [], []⟩)]

/-- C10 counterexample: a stored holding `{position: 3}` with a missing
`averagePrice` is malformed in the claim's sense, but the code treats it as
`{position: 3, averagePrice: 0}` — not `{position: 0, averagePrice: 0}` —
and a sell of 3 against it succeeds, while against an absent holding it is
rejected with `InsufficientPosition`: the code does not behave as if the
holding were absent. -/
theorem c10_per_field_coercion_counterexample :
    ensureHoldingStructure (some ⟨some (.fin 3), none⟩) =
      ⟨.fin 3, .fin 0⟩ ∧
    ¬ ensureHoldingStructure (some ⟨some (.fin 3), none⟩) =
      ⟨.fin 0, .fin 0⟩ ∧
    (executeTrade c10tab "u" ⟨"sell", some "HOG", .fin 3, .fin 10⟩).2 =
      Except.ok ⟨"sell", "HOG", .fin 3, .fin 10, .fin 1030, .fin 0,
        .fin 30⟩ ∧
    (executeTrade c10tabAbsent "u"
      ⟨"sell", some "HOG", .fin 3, .fin 10⟩).2 =
      .error .insufficientPosition :=
  ⟨by decide, by decide, by decide, by decide⟩

lemma lt_zero_of_amount_ok (q : JsNum) (h : amountBad q = false) :
    JsNum.lt (.fin 0) q = true := by
  cases q with
  | nan => simp [amountBad, JsNum.falsy] at h
  | inf => rfl
  | ninf => simp [amountBad, JsNum.le] at h
  | fin x =>
    rw [amountBad_fin_iff] at h
    simp [JsNum.lt, h]

/-- C10 amended: `ensureHoldingStructure` coerces the two fields
independently with `Number(_) || 0`, so a missing or `NaN` field becomes 0
while the other field keeps its coerced value; `executeTrade` is total over
such holdings; and a stored holding whose position coerces to 0 produces
exactly the same response (error or trade entry) as an absent holding. -/
theorem c10_malformed_holding_as_absent :
    (numOr0 none = .fin 0 ∧ numOr0 (some .nan) = .fin 0 ∧
      (∀ q : ℚ, numOr0 (some (.fin q)) = .fin q) ∧
      ∀ rh : RawHolding, ensureHoldingStructure (some rh) =
        ⟨numOr0 rh.position, numOr0 rh.averagePrice⟩) ∧
    (∀ (us : AccountTable) (name : String) (inp : TradeInput)
      (user : Account) (rh : RawHolding),
      lookupKey us name = some user →
      lookupKey user.holdings (trimSymbol inp.symbol) = some rh →
      numOr0 rh.position = .fin 0 →
      (executeTrade us name inp).2 =
        (executeTrade (insertKey us name
          ⟨user.balance, eraseKey user.holdings (trimSymbol inp.symbol),
            user.history⟩) name inp).2) := by
  refine ⟨⟨rfl, rfl, ?_, fun rh => rfl⟩, ?_⟩
  · intro q
    by_cases h : q = 0
    · subst h
      rfl
    · simp [numOr0, h]
  · intro us name inp user rh h1 h2 hpos
    have hl' := lookupKey_insertKey_self us name
      (⟨user.balance, eraseKey user.holdings (trimSymbol inp.symbol),
        user.history⟩ : Account)
    have hh' := lookupKey_eraseKey_self user.holdings
      (trimSymbol inp.symbol)
    simp only [executeTrade, h1, hl', hh', h2, ensureHoldingStructure, hpos]
    split_ifs with hv1 hv2 hv3 <;>
      first
      | rfl
      | exact absurd (lt_zero_of_amount_ok inp.quantity (by
          have h3 : (amountBad inp.quantity || amountBad inp.price) =
              false := by simpa using hv3
          exact (Bool.or_eq_false_iff.mp h3).1)) (by assumption)

/-- Witness for C10: a holding stored as `{averagePrice: 5}` (missing
position) responds to a buy of 2 at 10 exactly as an absent holding
does. -/
theorem c10_malformed_holding_as_absent_witness :
    (executeTrade [("u", ⟨.fin 1000, [("HOG", ⟨none, some (.fin 5)⟩)], []⟩)]
      "u" ⟨"buy", some "HOG", .fin 2, .fin 10⟩).2 =
    (executeTrade (insertKey
        [("u", ⟨.fin 1000, [("HOG", ⟨none, some (.fin 5)⟩)], []⟩)] "u"
        ⟨(⟨.fin 1000, [("HOG", ⟨none, some (.fin 5)⟩)], []⟩ :
            Account).balance,
          eraseKey (⟨.fin 1000, [("HOG", ⟨none, some (.fin 5)⟩)], []⟩ :
            Account).holdings (trimSymbol (some "HOG")),
          (⟨.fin 1000, [("HOG", ⟨none, some (.fin 5)⟩)], []⟩ :
            Account).history⟩)
      "u" ⟨"buy", some "HOG", .fin 2, .fin 10⟩).2 :=
  c10_malformed_holding_as_absent.2
    [("u", ⟨.fin 1000, [("HOG", ⟨none, some (.fin 5)⟩)], []⟩)] "u"
    ⟨"buy", some "HOG", .fin 2, .fin 10⟩
    ⟨.fin 1000, [("HOG", ⟨none, some (.fin 5)⟩)], []⟩
    ⟨none, some (.fin 5)⟩ rfl (by decide) rfl

/-- A stored holding with a positive finite position and a finite average
price — the shape of every holding the engine itself stores and
persists. -/
def GoodHolding (rh : RawHolding) : Prop :=
  (∃ p : ℚ, rh.position = some (.fin p) ∧ 0 < p) ∧
  (∃ a : ℚ, rh.averagePrice = some (.fin a))

/-- An account with a non-negative finite balance and good holdings. -/
def GoodAccount (acc : Account) : Prop :=
  (∃ b : ℚ, acc.balance = .fin b ∧ 0 ≤ b) ∧
  (∀ s rh, lookupKey acc.holdings s = some rh → GoodHolding rh)

/-- Every account of the table is good. -/
def GoodTable (us : AccountTable) : Prop :=
  ∀ name acc, lookupKey us name = some acc → GoodAccount acc

lemma lookupKey_mapValues {α β : Type} (f : α → β)
    (l : List (String × α)) (k : String) :
    lookupKey (mapValues f l) k = (lookupKey l k).map f := by
  induction l with
  | nil => rfl
  | cons hd tl ih =>
    obtain ⟨k', v⟩ := hd
    simp only [mapValues, List.map_cons] at ih ⊢
    by_cases h : k' = k <;> simp [lookupKey, h, ih]

lemma persistNum_nonneg (n : JsNum) (h : ∀ x : ℚ, n = .fin x → 0 ≤ x) :
    ∃ y : ℚ, persistNum n = .fin y ∧ 0 ≤ y := by
  cases n with
  | fin q => exact ⟨q, rfl, h q rfl⟩
  | nan => exact ⟨0, rfl, le_refl 0⟩
  | inf => exact ⟨0, rfl, le_refl 0⟩
  | ninf => exact ⟨0, rfl, le_refl 0⟩

lemma persistRawHolding_good (rh : RawHolding) (h : GoodHolding rh) :
    persistRawHolding rh = rh := by
  obtain ⟨⟨p, hp, _⟩, ⟨a, ha⟩⟩ := h
  have hrh : rh = ⟨some (.fin p), some (.fin a)⟩ := by
    cases rh
    simp_all
  subst hrh
  rfl

lemma persistAccount_good (acc : Account) (h : GoodAccount acc) :
    GoodAccount (persistAccount acc) := by
  obtain ⟨⟨b, hb, hb0⟩, hh⟩ := h
  constructor
  · exact ⟨b, by simp [persistAccount, hb, persistNum], hb0⟩
  · intro s rh' hrh'
    simp only [persistAccount, lookupKey_mapValues] at hrh'
    obtain ⟨rh, hrh, rfl⟩ := Option.map_eq_some'.mp hrh'
    rw [persistRawHolding_good rh (hh s rh hrh)]
    exact hh s rh hrh

lemma goodHoldings_erase (holdings : List (String × RawHolding))
    (sym : String)
    (h : ∀ s rh, lookupKey holdings s = some rh → GoodHolding rh) :
    ∀ s rh, lookupKey (eraseKey holdings sym) s = some rh →
      GoodHolding rh := by
  intro s rh hrh
  by_cases hs : s = sym
  · subst hs
    rw [lookupKey_eraseKey_self] at hrh
    exact absurd hrh (by simp)
  · rw [lookupKey_eraseKey_ne _ _ _ hs] at hrh
    exact h s rh hrh

lemma goodHoldings_insert (holdings : List (String × RawHolding))
    (sym : String) (newRh : RawHolding)
    (h : ∀ s rh, lookupKey holdings s = some rh → GoodHolding rh)
    (hnew : GoodHolding newRh) :
    ∀ s rh, lookupKey (insertKey holdings sym newRh) s = some rh →
      GoodHolding rh := by
  intro s rh hrh
  by_cases hs : s = sym
  · subst hs
    rw [lookupKey_insertKey_self] at hrh
    obtain rfl := Option.some.inj hrh
    exact hnew
  · rw [lookupKey_insertKey_ne _ _ _ _ hs] at hrh
    exact h s rh hrh

/-- Storing the acting user's updated record and persisting the table
through the JSON round-trip keeps every account good, provided the new
balance is non-negative whenever it is finite (a non-finite balance is
stored as `null` and read back as 0) and the new holdings are good. -/
lemma goodTable_insert_persist (us : AccountTable) (name : String)
    (hgood : GoodTable us) (newBalance : JsNum)
    (hbal : ∀ x : ℚ, newBalance = .fin x → 0 ≤ x)
    (newHoldings : List (String × RawHolding))
    (hh : ∀ s rh, lookupKey newHoldings s = some rh → GoodHolding rh)
    (hist : List TradeEntry) :
    GoodTable (persistTable (insertKey us name
      ⟨newBalance, newHoldings, hist⟩)) := by
  intro name' acc' hacc'
  simp only [persistTable, lookupKey_mapValues] at hacc'
  obtain ⟨acc0, hacc0, rfl⟩ := Option.map_eq_some'.mp hacc'
  by_cases hn : name' = name
  · subst hn
    rw [lookupKey_insertKey_self] at hacc0
    obtain rfl := Option.some.inj hacc0
    constructor
    · obtain ⟨y, hy, hy0⟩ := persistNum_nonneg newBalance hbal
      exact ⟨y, by simp [persistAccount, hy], hy0⟩
    · intro s rh' hrh'
      simp only [persistAccount, lookupKey_mapValues] at hrh'
      obtain ⟨rh, hrh, rfl⟩ := Option.map_eq_some'.mp hrh'
      rw [persistRawHolding_good rh (hh s rh hrh)]
      exact hh s rh hrh
  · rw [lookupKey_insertKey_ne _ _ _ _ hn] at hacc0
    exact persistAccount_good acc0 (hgood name' acc0 hacc0)

lemma amount_ok_cases (x : JsNum) (h : amountBad x = false) :
    x = .inf ∨ ∃ q : ℚ, x = .fin q ∧ 0 < q := by
  cases x with
  | nan => simp [amountBad, JsNum.falsy] at h
  | inf => exact Or.inl rfl
  | ninf => simp [amountBad, JsNum.le] at h
  | fin q => exact Or.inr ⟨q, rfl, (amountBad_fin_iff q).mp h⟩

/-- A sell credits `balance + price * quantity`; whenever the result is a
finite number it is non-negative (an infinite price makes it `Infinity`,
never a negative number). -/
lemma sell_balance_nonneg (b q : ℚ) (hb0 : 0 ≤ b) (hq0 : 0 < q)
    (price : JsNum) (hpv : amountBad price = false) :
    ∀ x : ℚ, (JsNum.fin b).add (price.mul (.fin q)) = .fin x → 0 ≤ x := by
  intro x hx
  rcases amount_ok_cases _ hpv with hp | ⟨p', hp, hp0⟩
  · rw [hp] at hx
    simp [JsNum.mul, JsNum.add, hq0] at hx
  · rw [hp, jsMul_fin, jsAdd_fin] at hx
    obtain rfl := JsNum.fin.inj hx
    have := mul_pos hp0 hq0
    linarith

/-- Good tables are preserved by one whole request: a successful
`executeTrade` followed by the store's JSON round-trip. -/
lemma storeStep_good (us us' : AccountTable) (hgood : GoodTable us)
    (hs : StoreTradeStep us us') : GoodTable us' := by
  obtain ⟨name, inp, t, e, heq, rfl⟩ := hs
  have hok : (executeTrade us name inp).2 = Except.ok e := by rw [heq]
  have hside : inp.type = "buy" ∨ inp.type = "sell" := by
    by_cases h : inp.type = "buy" ∨ inp.type = "sell"
    · exact h
    · exfalso
      simp [executeTrade, h] at hok
  rcases hside with htype | htype
  · have hsym : ¬ trimSymbol inp.symbol = "" := by
      intro hcon
      simp [executeTrade, htype, hcon] at hok
    have hqv : amountBad inp.quantity = false := by
      by_cases hcon : amountBad inp.quantity = true
      · exfalso
        simp [executeTrade, htype, hsym, hcon] at hok
      · simpa using hcon
    have hpv : amountBad inp.price = false := by
      by_cases hcon : amountBad inp.price = true
      · exfalso
        simp [executeTrade, htype, hsym, hqv, hcon] at hok
      · simpa using hcon
    cases hl : lookupKey us name with
    | none =>
      exfalso
      simp [executeTrade, htype, hsym, hqv, hpv, hl] at hok
    | some user =>
    obtain ⟨⟨b, hb, hb0⟩, hhold⟩ := hgood name user hl
    have hfunds : user.balance.lt (inp.price.mul inp.quantity) = false := by
      by_cases hcon : user.balance.lt (inp.price.mul inp.quantity) = true
      · exfalso
        simp [executeTrade, htype, hsym, hqv, hpv, hl, hcon] at hok
      · simpa using hcon
    obtain ⟨q, hq, hq0⟩ : ∃ q : ℚ, inp.quantity = .fin q ∧ 0 < q := by
      rcases amount_ok_cases _ hqv with hq | hfin
      · exfalso
        rcases amount_ok_cases _ hpv with hp | ⟨p', hp, hp0⟩
        · rw [hb, hq, hp] at hfunds
          simp [JsNum.mul, JsNum.lt] at hfunds
        · rw [hb, hq, hp] at hfunds
          simp [JsNum.mul, JsNum.lt, hp0] at hfunds
      · exact hfin
    obtain ⟨p, hp, hp0⟩ : ∃ p : ℚ, inp.price = .fin p ∧ 0 < p := by
      rcases amount_ok_cases _ hpv with hp | hfin
      · exfalso
        rw [hb, hq, hp] at hfunds
        simp [JsNum.mul, JsNum.lt, hq0] at hfunds
      · exact hfin
    obtain ⟨n, c, hn0, hens⟩ : ∃ n c : ℚ, 0 ≤ n ∧
        ensureHoldingStructure (lookupKey user.holdings
          (trimSymbol inp.symbol)) = ⟨.fin n, .fin c⟩ := by
      cases hrh : lookupKey user.holdings (trimSymbol inp.symbol) with
      | none => exact ⟨0, 0, le_refl 0, rfl⟩
      | some rh =>
        obtain ⟨⟨pp, hpp, hpp0⟩, ⟨aa, haa⟩⟩ := hhold _ _ hrh
        refine ⟨pp, aa, le_of_lt hpp0, ?_⟩
        simp only [ensureHoldingStructure]
        rw [hpp, haa]
        rfl
    have hble : p * q ≤ b := by
      rw [hb, hp, hq, jsMul_fin, jsLt_fin] at hfunds
      simpa using hfunds
    have hnq : n + q ≠ 0 := by positivity
    have hnefin : JsNum.fin (n + q) ≠ JsNum.fin 0 := by simp [hnq]
    have heq2 := executeTrade_buy_eq us name inp user htype hsym hqv hpv hl
      hfunds
    rw [heq2] at heq
    simp only [hens, hq, hp, hb, jsMul_fin, jsAdd_fin, jsSub_fin, jsLt_fin,
      jsToFixed2_fin, finishTrade, if_neg hnefin,
      jsDiv_fin _ _ hnq] at heq
    rw [Prod.mk.injEq] at heq
    obtain ⟨ht, _⟩ := heq
    rw [← ht]
    refine goodTable_insert_persist us name hgood _ ?_ _ ?_ _
    · intro x hx
      obtain rfl := JsNum.fin.inj hx
      linarith
    · refine goodHoldings_insert _ _ _ (fun s rh hrh => hhold s rh hrh) ?_
      exact ⟨⟨n + q, rfl, by positivity⟩, ⟨_, rfl⟩⟩
  · have htype' : ¬ inp.type = "buy" := by simp [htype]
    have hsym : ¬ trimSymbol inp.symbol = "" := by
      intro hcon
      simp [executeTrade, htype, hcon] at hok
    have hqv : amountBad inp.quantity = false := by
      by_cases hcon : amountBad inp.quantity = true
      · exfalso
        simp [executeTrade, htype, hsym, hcon] at hok
      · simpa using hcon
    have hpv : amountBad inp.price = false := by
      by_cases hcon : amountBad inp.price = true
      · exfalso
        simp [executeTrade, htype, hsym, hqv, hcon] at hok
      · simpa using hcon
    cases hl : lookupKey us name with
    | none =>
      exfalso
      simp [executeTrade, htype, hsym, hqv, hpv, hl] at hok
    | some user =>
    obtain ⟨⟨b, hb, hb0⟩, hhold⟩ := hgood name user hl
    obtain ⟨n, c, hn0, hens⟩ : ∃ n c : ℚ, 0 ≤ n ∧
        ensureHoldingStructure (lookupKey user.holdings
          (trimSymbol inp.symbol)) = ⟨.fin n, .fin c⟩ := by
      cases hrh : lookupKey user.holdings (trimSymbol inp.symbol) with
      | none => exact ⟨0, 0, le_refl 0, rfl⟩
      | some rh =>
        obtain ⟨⟨pp, hpp, hpp0⟩, ⟨aa, haa⟩⟩ := hhold _ _ hrh
        refine ⟨pp, aa, le_of_lt hpp0, ?_⟩
        simp only [ensureHoldingStructure]
        rw [hpp, haa]
        rfl
    have hpos : (ensureHoldingStructure (lookupKey user.holdings
        (trimSymbol inp.symbol))).position.lt inp.quantity = false := by
      by_cases hcon : (ensureHoldingStructure (lookupKey user.holdings
          (trimSymbol inp.symbol))).position.lt inp.quantity = true
      · exfalso
        simp [executeTrade, htype, htype', hsym, hqv, hpv, hl, hcon] at hok
      · simpa using hcon
    obtain ⟨q, hq, hq0⟩ : ∃ q : ℚ, inp.quantity = .fin q ∧ 0 < q := by
      rcases amount_ok_cases _ hqv with hq | hfin
      · exfalso
        rw [hens, hq] at hpos
        simp [JsNum.lt] at hpos
      · exact hfin
    have hqn : q ≤ n := by
      rw [hens, hq] at hpos
      simpa [jsLt_fin] using hpos
    have heq2 := executeTrade_sell_eq us name inp user htype hsym hqv hpv hl
      hpos
    rw [heq2] at heq
    simp only [hens, hq, hb, jsSub_fin, finishTrade] at heq
    split_ifs at heq with hz
    · rw [Prod.mk.injEq] at heq
      obtain ⟨ht, _⟩ := heq
      rw [← ht]
      refine goodTable_insert_persist us name hgood _ ?_ _ ?_ _
      · exact sell_balance_nonneg b q hb0 hq0 inp.price hpv
      · exact goodHoldings_erase _ _ (fun s rh hrh => hhold s rh hrh)
    · rw [Prod.mk.injEq] at heq
      obtain ⟨ht, _⟩ := heq
      rw [← ht]
      refine goodTable_insert_persist us name hgood _ ?_ _ ?_ _
      · exact sell_balance_nonneg b q hb0 hq0 inp.price hpv
      · refine goodHoldings_insert _ _ _ (fun s rh hrh => hhold s rh hrh) ?_
        have hnz : n - q ≠ 0 := by
          intro hcon
          exact hz (by rw [hcon])
        exact ⟨⟨n - q, rfl, lt_of_le_of_ne (by linarith) (Ne.symm hnz)⟩,
          ⟨c, rfl⟩⟩

lemma goodTable_fresh : GoodTable tableFresh := by
  intro name acc hacc
  simp only [tableFresh, lookupKey] at hacc
  split_ifs at hacc with h
  · obtain rfl := Option.some.inj hacc
    exact ⟨⟨1000000, rfl, by norm_num⟩,
      fun s rh hrh => absurd hrh (by simp [freshAccount, lookupKey])⟩

/-- C1: every persisted account state reachable from a freshly registered
account by `executeTrade` requests has a finite non-negative balance, for
which `balance >= 0` holds (a non-finite balance never survives the store
round-trip: it is written as `null`, which every read coerces to 0); and a
valid buy whose cost exceeds the current balance is rejected with
`InsufficientFunds` with the table unchanged. -/
theorem c1_solvency_invariant :
    (∀ us, ReachableStore tableFresh us →
      ∀ name acc, lookupKey us name = some acc →
        ∃ b : ℚ, acc.balance = .fin b ∧ 0 ≤ b ∧
          acc.balance.ge (.fin 0) = true) ∧
    (∀ (us : AccountTable) (name : String) (inp : TradeInput)
      (user : Account), inp.type = "buy" →
      ¬ trimSymbol inp.symbol = "" →
      amountBad inp.quantity = false → amountBad inp.price = false →
      lookupKey us name = some user →
      user.balance.lt (inp.price.mul inp.quantity) = true →
      executeTrade us name inp = (us, .error .insufficientFunds)) := by
  constructor
  · intro us hreach
    have hg : GoodTable us := by
      induction hreach with
      | refl => exact goodTable_fresh
      | tail _ hstep ih => exact storeStep_good _ _ ih hstep
    intro name acc hacc
    obtain ⟨⟨b, hb, hb0⟩, _⟩ := hg name acc hacc
    refine ⟨b, hb, hb0, ?_⟩
    rw [hb]
    simp only [JsNum.ge, JsNum.le, decide_eq_true_eq]
    exact hb0
  · intro us name inp user htype hsym hqv hpv hl hguard
    simp [executeTrade, htype, hsym, hqv, hpv, hl, hguard]

/-- Witness for C1: the fresh account's balance 1,000,000 is a
non-negative finite number, and buying 1 unit at 2,000,000 from it fails
with `InsufficientFunds` leaving the table unchanged. -/
theorem c1_solvency_invariant_witness :
    (∃ b : ℚ, freshAccount.balance = .fin b ∧ 0 ≤ b ∧
      freshAccount.balance.ge (.fin 0) = true) ∧
    executeTrade tableFresh "u" ⟨"buy", some "HOG", .fin 1, .fin 2000000⟩ =
      (tableFresh, .error .insufficientFunds) :=
  ⟨c1_solvency_invariant.1 tableFresh Relation.ReflTransGen.refl "u"
      freshAccount rfl,
   c1_solvency_invariant.2 tableFresh "u"
      ⟨"buy", some "HOG", .fin 1, .fin 2000000⟩ freshAccount rfl (by decide)
      (by decide) (by decide) rfl (by decide)⟩

/-- The persisted table after buying 10 HOG at 120 from the fresh table,
used by the C2 witness. -/
def c2wTable : AccountTable :=
  persistTable [("u", ⟨.fin 998800,
    [("HOG", ⟨some (.fin 10), some (.fin 120)⟩)],
    [⟨"buy", "HOG", .fin 10, .fin 120, .fin 998800, .fin 10, .fin 0⟩]⟩)]

/-- C2: in every persisted account state reachable from a freshly
registered account, every stored holding's position is a positive finite
number, for which `position >= 0` holds; and a valid sell whose quantity
exceeds the current position is rejected with `InsufficientPosition`
with the table unchanged. -/
theorem c2_nonnegative_position_invariant :
    (∀ us, ReachableStore tableFresh us →
      ∀ name acc, lookupKey us name = some acc →
        ∀ s rh, lookupKey acc.holdings s = some rh →
          ∃ p : ℚ, rh.position = some (.fin p) ∧ 0 < p ∧
            (JsNum.fin p).ge (.fin 0) = true) ∧
    (∀ (us : AccountTable) (name : String) (inp : TradeInput)
      (user : Account), inp.type = "sell" →
      ¬ trimSymbol inp.symbol = "" →
      amountBad inp.quantity = false → amountBad inp.price = false →
      lookupKey us name = some user →
      (ensureHoldingStructure (lookupKey user.holdings
        (trimSymbol inp.symbol))).position.lt inp.quantity = true →
      executeTrade us name inp = (us, .error .insufficientPosition)) := by
  constructor
  · intro us hreach
    have hg : GoodTable us := by
      induction hreach with
      | refl => exact goodTable_fresh
      | tail _ hstep ih => exact storeStep_good _ _ ih hstep
    intro name acc hacc s rh hrh
    obtain ⟨_, hhold⟩ := hg name acc hacc
    obtain ⟨⟨p, hp, hp0⟩, _⟩ := hhold s rh hrh
    refine ⟨p, hp, hp0, ?_⟩
    simp only [JsNum.ge, JsNum.le, decide_eq_true_eq]
    exact le_of_lt hp0
  · intro us name inp user htype hsym hqv hpv hl hguard
    have htype' : ¬ inp.type = "buy" := by simp [htype]
    simp [executeTrade, htype, htype', hsym, hqv, hpv, hl, hguard]

/-- Witness for C2: after one persisted buy of 10 HOG the stored position
is the positive number 10, and selling 20 HOG against a 10-unit position
fails with `InsufficientPosition` leaving the table unchanged. -/
theorem c2_nonnegative_position_invariant_witness :
    (∃ p : ℚ,
      (⟨some (.fin 10), some (.fin 120)⟩ : RawHolding).position =
        some (.fin p) ∧ 0 < p ∧ (JsNum.fin p).ge (.fin 0) = true) ∧
    executeTrade c7start "u" ⟨"sell", some "HOG", .fin 20, .fin 120⟩ =
      (c7start, .error .insufficientPosition) :=
  ⟨c2_nonnegative_position_invariant.1 c2wTable
      (Relation.ReflTransGen.single ⟨"u",
        ⟨"buy", some "HOG", .fin 10, .fin 120⟩,
        [("u", ⟨.fin 998800, [("HOG", ⟨some (.fin 10), some (.fin 120)⟩)],
          [⟨"buy", "HOG", .fin 10, .fin 120, .fin 998800, .fin 10,
            .fin 0⟩]⟩)],
        ⟨"buy", "HOG", .fin 10, .fin 120, .fin 998800, .fin 10, .fin 0⟩,
        by decide, rfl⟩)
      "u" ⟨.fin 998800, [("HOG", ⟨some (.fin 10), some (.fin 120)⟩)],
        [⟨"buy", "HOG", .fin 10, .fin 120, .fin 998800, .fin 10, .fin 0⟩]⟩
      (by decide) "HOG" ⟨some (.fin 10), some (.fin 120)⟩ (by decide),
   c2_nonnegative_position_invariant.2 c7start "u"
      ⟨"sell", some "HOG", .fin 20, .fin 120⟩
      ⟨.fin 998800, [("HOG", ⟨some (.fin 10), some (.fin 120)⟩)], []⟩
      rfl (by decide) (by decide) (by decide) (by decide) (by decide)⟩

end HogFutures
